import Mathlib

/-!
Verification of the Arabic-name matching core of the Tunisian_NamesML
repository (src/my_project).  Strings are modelled as `List Char`
(Rust `String` / `&str` at the level of Unicode scalar values); the
byte-oriented operations of the source (`str::len`, slicing, `truncate`)
are modelled through `Char.utf8Size`, and `f64` / `f32` arithmetic is
modelled exactly over `ℚ`.  Each definition mirrors one function of the
source tree; the file ends with the theorems settling the claims.
-/

namespace TunisianNames

/-- Convert a Lean string literal to the `List Char` representation used
throughout this development. -/
def ar (s : String) : List Char := s.data

/-- UTF-8 byte length of a string, i.e. Rust `str::len`. -/
def utf8Len (l : List Char) : Nat := (l.map Char.utf8Size).sum

/-! ## §4.1 Normalizer — src/utils/normalization.rs -/

/-- One `String::replace` call whose pattern is a single character `c`
and whose replacement is the character sequence `r`.  On a single-char
pattern, Rust `replace` substitutes every occurrence independently, which
is exactly a `flatMap` over the characters. -/
def replaceChar (c : Char) (r : List Char) (l : List Char) : List Char :=
  l.flatMap (fun x => if x = c then r else [x])

/-- A sequence of `replace` calls, applied left to right. -/
def runStages (stages : List (Char × List Char)) (l : List Char) : List Char :=
  stages.foldl (fun acc st => replaceChar st.1 st.2 acc) l

/-- The eight harakat removed by `remove_diacritics`, in source order
(U+064E, U+064B, U+064F, U+064C, U+0650, U+064D, U+0651, U+0652). -/
def diaStages : List (Char × List Char) :=
  [('َ', []), ('ً', []), ('ُ', []), ('ٌ', []),
   ('ِ', []), ('ٍ', []), ('ّ', []), ('ْ', [])]

/-- Rust `remove_diacritics` (normalization.rs): strip the eight Arabic
harakat by successive `replace(dia, "")` calls. -/
def remove_diacritics (l : List Char) : List Char :=
  runStages diaStages l

/-- The ten substitutions of `normalize_arabic` (normalization.rs), in
source order: ة→ه, ى→ي, أ→ا, إ→ا, ؤ→و, ئ→ي, and the four Lam-Alef
presentation forms U+FEF7/U+FEF5/U+FEF9/U+FEFB → لا. -/
def arabStages : List (Char × List Char) :=
  [('ة', ['ه']), ('ى', ['ي']), ('أ', ['ا']),
   ('إ', ['ا']), ('ؤ', ['و']), ('ئ', ['ي']),
   ('ﻷ', ['ل', 'ا']), ('ﻵ', ['ل', 'ا']),
   ('ﻹ', ['ل', 'ا']), ('ﻻ', ['ل', 'ا'])]

/-- Rust `normalize_arabic` (normalization.rs): the ten chained `replace`
calls. -/
def normalize_arabic (l : List Char) : List Char :=
  runStages arabStages l

/-- The prefix table of `standardize_prefixes`, in source order:
ال, بن, ابن, بنت, أبو, أم. -/
def prefTable : List (List Char) :=
  [['ا', 'ل'], ['ب', 'ن'], ['ا', 'ب', 'ن'],
   ['ب', 'ن', 'ت'], ['أ', 'ب', 'و'],
   ['أ', 'م']]

/-- Rust `standardize_prefixes` (normalization.rs): strip the first matching
prefix of the table, at most one per call.  The source slices the byte
range `prefix.len()..`; since the prefix was just matched, that slice
drops exactly the prefix's characters (see the byte-level model and the
safety theorem below). -/
def standardize_prefixes (l : List Char) : List Char :=
  match prefTable.find? (fun p => p.isPrefixOf l) with
  | some p => l.drop p.length
  | none => l

/-- Byte-level model of `&normalized[prefix.len()..]`: drop characters
consuming exactly `n` bytes; `none` models the Rust panic when byte `n`
is not a character boundary. -/
def sliceFromByte (n : Nat) : List Char → Option (List Char)
  | [] => if n = 0 then some [] else none
  | c :: cs =>
    if n = 0 then some (c :: cs)
    else if c.utf8Size ≤ n then sliceFromByte (n - c.utf8Size) cs
    else none

/-- Byte-level `standardize_prefixes`: the slice is taken at byte index
`prefix.len()` and panics (`none`) off a char boundary. -/
def standardize_prefixes_bytes (l : List Char) : Option (List Char) :=
  match prefTable.find? (fun p => p.isPrefixOf l) with
  | some p => sliceFromByte (utf8Len p) l
  | none => some l

/-! ## §4.2 Phonetic encoder — src/utils/phonetic.rs -/

/-- The sixteen substitutions of `normalize_arabic_letters`
(phonetic.rs), in source order: أ إ آ→ا, ى ئ→ي, ؤ→و, ة→ه, ء→"", then the
eight harakat → "" (U+064E, U+064B, U+064F, U+064C, U+0650, U+064D,
U+0652, U+0651). -/
def phonStages : List (Char × List Char) :=
  [('أ', ['ا']), ('إ', ['ا']), ('آ', ['ا']),
   ('ى', ['ي']), ('ئ', ['ي']), ('ؤ', ['و']),
   ('ة', ['ه']), ('ء', []),
   ('َ', []), ('ً', []), ('ُ', []), ('ٌ', []),
   ('ِ', []), ('ٍ', []), ('ْ', []), ('ّ', [])]

/-- Rust `normalize_arabic_letters` (phonetic.rs): the encoder's internal
pre-normalization. -/
def normalize_arabic_letters (l : List Char) : List Char :=
  runStages phonStages l

/-- The digit table of `get_code` (phonetic.rs), written as the same
match: each consonant class maps to its digit, everything else to '0'. -/
def digitOf (c : Char) : Char :=
  if c = 'ب' ∨ c = 'ف' then '1'
  else if c = 'ج' ∨ c = 'ك' ∨ c = 'ق' then '2'
  else if c = 'د' ∨ c = 'ت' ∨ c = 'ض' then '3'
  else if c = 'ر' ∨ c = 'ل' ∨ c = 'ن' then '4'
  else if c = 'س' ∨ c = 'ش' ∨ c = 'ز' then '5'
  else if c = 'ط' ∨ c = 'ظ' ∨ c = 'ص' then '6'
  else if c = 'ع' ∨ c = 'غ' ∨ c = 'ح' then '7'
  else if c = 'خ' ∨ c = 'ه' then '8'
  else if c = 'م' ∨ c = 'و' then '9'
  else '0'

/-- The digit-emitting loop of `get_code`: a digit is appended only if it
is non-zero and differs from the last digit appended. -/
def codeDigits : List Char → Char → List Char
  | [], _ => []
  | c :: cs, last =>
    let d := digitOf c
    if d ≠ '0' ∧ d ≠ last then d :: codeDigits cs d else codeDigits cs last

/-- The untruncated code built by `get_code`: first input character
verbatim, then the collapsed digits (`last_digit` starts at '0'). -/
def rawCode (name : List Char) : List Char :=
  match name with
  | [] => []
  | c :: rest => c :: codeDigits rest '0'

/-- Byte-level model of `String::truncate n`: keep the characters in the
first `n` bytes; `none` models the Rust panic when byte `n` is not a
character boundary (no-op when the string already fits). -/
def rustTruncate (n : Nat) (l : List Char) : Option (List Char) :=
  if utf8Len l ≤ n then some l else takeToByte n l
where
  takeToByte : Nat → List Char → Option (List Char)
    | _, [] => none
    | n, c :: cs =>
      if n = 0 then some []
      else if c.utf8Size ≤ n then
        (takeToByte (n - c.utf8Size) cs).map (fun t => c :: t)
      else none

/-- Rust `get_code` (phonetic.rs), with the `code.truncate(4)` call modelled
at the byte level (`none` = panic; proved impossible below). -/
def get_code (name : List Char) : Option (List Char) :=
  rustTruncate 4 (rawCode name)

/-- The longest character prefix of `l` that fits in `n` UTF-8 bytes. -/
def truncBytes : Nat → List Char → List Char
  | _, [] => []
  | n, c :: cs => if c.utf8Size ≤ n then c :: truncBytes (n - c.utf8Size) cs else []

/-- Total value of `get_code`, justified by the theorem that `get_code`
never panics and returns exactly this. -/
def getCodeT (name : List Char) : List Char :=
  truncBytes 4 (rawCode name)

/-- Rust `aramix_soundex` (phonetic.rs): internal pre-normalization followed
by the code emission. -/
def aramix_soundex (name : List Char) : List Char :=
  getCodeT (normalize_arabic_letters name)

/-! ## §4.3 Pair scorer — src/utils/matching.rs

The `strsim` crate is an external dependency (its source is not part of
this repository); `levenshtein` and `jaro` are embedded from the crate's
documented behaviour: standard Levenshtein edit distance over Unicode
scalar values, and standard Jaro similarity (no Winkler boost) computed
with the usual search window and run over the second string. -/

/-- Standard Levenshtein edit distance over Unicode scalar values,
the behaviour of `strsim::levenshtein`. -/
def levenshtein : List Char → List Char → Nat
  | [], bs => bs.length
  | a :: as, [] => (a :: as).length
  | a :: as, b :: bs =>
    let del := levenshtein as (b :: bs) + 1
    let ins := levenshtein (a :: as) bs + 1
    let sub := levenshtein as bs + (if a = b then 0 else 1)
    min del (min ins sub)
termination_by as bs => as.length + bs.length
decreasing_by all_goals first | omega | (simp_all; omega) | simp_all

/-- Inner loop of Jaro: scan the second string from the left and return
the first index `j` in `[lo, hi]` whose character equals `aElem` and is
not yet consumed. -/
def jaroFind (consumed : List Bool) (b : List Char) (aElem : Char)
    (lo hi : Nat) : Option Nat :=
  (List.range b.length).find? (fun j =>
    decide (lo ≤ j) && decide (j ≤ hi) && (b.get? j == some aElem)
      && (consumed.get? j == some false))

/-- One step of the Jaro outer loop: state is (consumed flags, matches,
transpositions, index of the last match in `b`). -/
def jaroStep (b : List Char) (bLen searchRange : Nat)
    (st : List Bool × Nat × Nat × Nat) (ia : Nat × Char) :
    List Bool × Nat × Nat × Nat :=
  let consumed := st.1
  let m := st.2.1
  let t := st.2.2.1
  let bIdx := st.2.2.2
  let i := ia.1
  let lo := if i > searchRange then i - searchRange else 0
  let hi := min (bLen - 1) (i + searchRange)
  if lo > hi then st
  else
    match jaroFind consumed b ia.2 lo hi with
    | none => st
    | some j => (consumed.set j true, m + 1, (if j < bIdx then t + 1 else t), j)

/-- Standard Jaro similarity over Unicode scalar values, the behaviour of
`strsim::jaro` (plain Jaro, no prefix boost). -/
def jaro (a b : List Char) : ℚ :=
  let aLen := a.length
  let bLen := b.length
  if aLen = 0 ∧ bLen = 0 then 1
  else if aLen = 0 ∨ bLen = 0 then 0
  else if aLen = 1 ∧ bLen = 1 then (if a = b then 1 else 0)
  else
    let searchRange := max aLen bLen / 2 - 1
    let st := a.enum.foldl (jaroStep b bLen searchRange)
      (List.replicate bLen false, 0, 0, 0)
    let m := st.2.1
    let t := st.2.2.1
    if m = 0 then 0
    else (1 / 3 : ℚ) * ((m : ℚ) / (aLen : ℚ) + (m : ℚ) / (bLen : ℚ)
      + (((m - t : Nat) : ℚ) / (m : ℚ)))

/-- The length-normalized Levenshtein component of
`score_pair_with_soundex` (matching.rs line 14-16):
`1.0 - levenshtein(s1, s2).min(s1.len()) / s1.len().max(1)`.
Rust `str::len` is the UTF-8 byte length, hence `utf8Len`. -/
def lev_component (norm_s1 norm_s2 : List Char) : ℚ :=
  1 - ((min (levenshtein norm_s1 norm_s2) (utf8Len norm_s1) : Nat) : ℚ)
      / ((max (utf8Len norm_s1) 1 : Nat) : ℚ)

/-- Rust `score_pair_with_soundex` (matching.rs): Jaro and the Levenshtein
component averaged into 80% of the score, plus a flat 20% Soundex bonus,
capped at 1.  The decimal literals 0.8 and 0.2 are the exact rationals
8/10 and 2/10. -/
def score_pair_with_soundex (norm_s1 norm_s2 : List Char) : ℚ :=
  let j := jaro norm_s1 norm_s2
  let lev := lev_component norm_s1 norm_s2
  let base_score := ((j + lev) / 2) * (8 / 10)
  let bonus : ℚ :=
    if aramix_soundex norm_s1 = aramix_soundex norm_s2 then 2 / 10 else 0
  min (base_score + bonus) 1

/-- Rust `combo` (matching.rs): average of the phonetic match indicator and
plain Jaro (computed in `f32` in the source; exact over `ℚ` here). -/
def combo (norm_a norm_b : List Char) : ℚ :=
  let p : ℚ := if aramix_soundex norm_a = aramix_soundex norm_b then 1 else 0
  let j := jaro norm_a norm_b
  (p + j) / 2

/-! ## Linked list — src/utils/linked_list.rs -/

/-- Rust `VariationNode`: a singly linked list of raw surface forms
(`variation: String, next_variation: Option<Box<VariationNode>>`). -/
inductive VariationNode where
  | mk (variation : List Char) (next_variation : Option VariationNode)

/-- The raw variants stored in a variation list, head first. -/
def varList : Option VariationNode → List (List Char)
  | none => []
  | some (.mk v next) => v :: varList next

/-- Byte-lexicographic comparison of Rust `String`s.  UTF-8 is
order-preserving, so byte order coincides with lexicographic order on
Unicode scalar values, which is what this implements. -/
def strLtB : List Char → List Char → Bool
  | [], [] => false
  | [], _ :: _ => true
  | _ :: _, [] => false
  | a :: as, b :: bs =>
    if a.toNat < b.toNat then true
    else if b.toNat < a.toNat then false
    else strLtB as bs

/-- Rust `insert_variation` (linked_list.rs): sorted insertion into the
variation list, returning unchanged when the raw string is already
present (`node.variation == variation`), inserting before the first node
with `node.variation > variation`. -/
def insert_variation : Option VariationNode → List Char → Option VariationNode
  | none, v => some (.mk v none)
  | some (.mk w next), v =>
    if w = v then some (.mk w next)
    else if strLtB v w then some (.mk v (some (.mk w next)))
    else some (.mk w (insert_variation next v))

/-- Rust `best_score_against_variations` (matching.rs): best of
`score_pair_with_soundex` against the base and against each raw
variation normalized on the fly
(`standardize_prefixes(normalize_arabic(remove_diacritics(v)))`). -/
def best_score_against_variations (norm_input norm_base : List Char)
    (variations : Option VariationNode) : ℚ :=
  bestLoop (score_pair_with_soundex norm_input norm_base) variations
where
  bestLoop (best : ℚ) : Option VariationNode → ℚ
    | none => best
    | some (.mk v next) =>
      let norm_variation :=
        standardize_prefixes (normalize_arabic (remove_diacritics v))
      let s := score_pair_with_soundex norm_input norm_variation
      bestLoop (if s > best then s else best) next

/-! ## Full-record score and candidate filter — src/utils/matching.rs -/

/-- The six name fields as the tuple used by `calculate_full_score` and
`should_consider_candidate` (first, last, father, grandfather,
mother-last, mother-first). -/
structure NameTuple where
  first : List Char
  last : List Char
  father : List Char
  grandfather : List Char
  motherLast : List Char
  mother : List Char
deriving DecidableEq

/-- The six variation lists passed (and ignored) by
`calculate_full_score`. -/
structure VarTuple where
  first : Option VariationNode
  last : Option VariationNode
  father : Option VariationNode
  grandfather : Option VariationNode
  motherLast : Option VariationNode
  mother : Option VariationNode

/-- Rust `calculate_full_score` (matching.rs lines 68-127): the weighted
total, written with the same accumulating `score` and `total` as the
source.  The weights are the exact rationals of the source literals.
The mother-last entries and the variation/sex parameters are received
and ignored exactly as in the source. -/
def calculate_full_score (input_norm_names target_norm_names : NameTuple)
    (_vrs : VarTuple) (dob1 dob2 : Option (Nat × Nat × Nat))
    (place1_norm place2_norm : List Char) (_sex1 _sex2 : Nat) : ℚ :=
  -- the source mutates a `score` and a `total` accumulator; the numbered
  -- bindings are its successive states
  -- First name (35%)
  let s1 : ℚ := 0 + combo input_norm_names.first target_norm_names.first * (35 / 100)
  let t1 : ℚ := 0 + 35 / 100
  -- Last name (30%)
  let s2 := s1 + combo input_norm_names.last target_norm_names.last * (30 / 100)
  let t2 := t1 + 30 / 100
  -- Father name (10%)
  let s3 := s2 + jaro input_norm_names.father target_norm_names.father * (10 / 100)
  let t3 := t2 + 10 / 100
  -- Grandfather name (5%)
  let s4 := s3 + jaro input_norm_names.grandfather target_norm_names.grandfather * (5 / 100)
  let t4 := t3 + 5 / 100
  -- Mother name (5%)
  let s5 := s4 + jaro input_norm_names.mother target_norm_names.mother * (5 / 100)
  let t5 := t4 + 5 / 100
  -- DOB exact match (10%); the weight is accumulated unconditionally
  let s6 :=
    match dob1, dob2 with
    | some d1, some d2 => s5 + (if d1 = d2 then (1 : ℚ) else 0) * (10 / 100)
    | _, _ => s5
  let t6 := t5 + 10 / 100
  -- Place of birth (5%)
  let s7 := s6 + jaro place1_norm place2_norm * (5 / 100)
  let t7 := t6 + 5 / 100
  s7 / t7

/-- The 9-tuple of details taken by `should_consider_candidate`: six
name fields, dob, sex, place. -/
structure Details where
  names : NameTuple
  dob : Option (Nat × Nat × Nat)
  sex : Nat
  place : List Char

/-- Rust `should_consider_candidate` (matching.rs lines 132-166): sex gate,
±10-year window when both dobs are present, last-name Soundex gate. -/
def should_consider_candidate (input_details candidate_details : Details) : Bool :=
  if input_details.sex ≠ candidate_details.sex then false
  else
    let yearReject : Bool :=
      match input_details.dob, candidate_details.dob with
      | some (_, _, y1), some (_, _, y2) =>
        decide (((y1 : ℤ) - (y2 : ℤ)).natAbs > 10)
      | _, _ => false
    if yearReject then false
    else if aramix_soundex input_details.names.last
        ≠ aramix_soundex candidate_details.names.last then false
    else true

/-! ## Loader — src/utils/loader.rs -/

/-- Rust `IdentityNode` (linked_list.rs).  The `next_identity` link is always
`None` on the loader/match path modelled here (`load_identities_by_generation`
builds a flat `Vec` of nodes with `next_identity: None`) and is omitted. -/
structure IdentityNode where
  first_name : List Char
  last_name : List Char
  father_name : List Char
  grandfather_name : List Char
  mother_last_name : List Char
  mother_name : List Char
  dob : Option (Nat × Nat × Nat)
  sex : Nat
  place_of_birth : List Char
  first_name_variations : Option VariationNode
  last_name_variations : Option VariationNode
  father_name_variations : Option VariationNode
  grandfather_name_variations : Option VariationNode
  mother_last_name_variations : Option VariationNode
  mother_name_variations : Option VariationNode

/-- Rust `generation_key` (loader.rs): decade bucket.  The source uses `i32`;
the years reaching it come from `u32` casts, so they are non-negative
and truncated division coincides with `Nat` division. -/
def generation_key (year : Nat) : Nat := year / 10 * 10

/-- One raw reference row as fetched from the store: the six name
fields, day/month/year, the gender attribute and the place of birth. -/
structure RawRow where
  first : List Char
  last : List Char
  father : List Char
  grandpa : List Char
  mom_last : List Char
  mom : List Char
  day : Nat
  mon : Nat
  year : Nat
  gender : List Char
  place : List Char

/-- The gender mapping of the loader: "1" | "ذكر" → 1, "2" | "أنثى" → 2,
otherwise 0. -/
def sexOfGender (gender : List Char) : Nat :=
  if gender = ar ("1") ∨ gender = ar ("ذكر") then 1
  else if gender = ar ("2") ∨ gender = ar ("أنثى") then 2
  else 0

/-- The normalization closure of the loader (loader.rs lines 49-53):
`standardize_prefixes(normalize_arabic(remove_diacritics(s)))`. -/
def loaderNormalize (s : List Char) : List Char :=
  standardize_prefixes (normalize_arabic (remove_diacritics s))

/-- The row-to-node construction of `load_identities_by_generation`
(loader.rs lines 55-106): the six name fields are normalized, the dob is
packed, the place of birth is stored as `place.clone()` (the raw string,
exactly as in the source), and each variation list is seeded with the
single raw original. -/
def loadRow (row : RawRow) : IdentityNode :=
  { first_name := loaderNormalize row.first
    last_name := loaderNormalize row.last
    father_name := loaderNormalize row.father
    grandfather_name := loaderNormalize row.grandpa
    mother_last_name := loaderNormalize row.mom_last
    mother_name := loaderNormalize row.mom
    dob := some (row.day, row.mon, row.year)
    sex := sexOfGender row.gender
    place_of_birth := row.place
    first_name_variations := some (.mk row.first none)
    last_name_variations := some (.mk row.last none)
    father_name_variations := some (.mk row.father none)
    grandfather_name_variations := some (.mk row.grandpa none)
    mother_last_name_variations := some (.mk row.mom_last none)
    mother_name_variations := some (.mk row.mom none) }

/-! ## Match endpoint — src/main.rs -/

/-- Rust `InputIdentity` (main.rs). -/
structure InputIdentity where
  first_name : List Char
  last_name : List Char
  father_name : List Char
  grandfather_name : List Char
  mother_last_name : List Char
  mother_name : List Char
  dob : Option (Nat × Nat × Nat)
  sex : Nat
  place_of_birth : List Char

/-- Rust `IdentityRecord` (main.rs): the serialized matched identity,
with `dob` defaulted to (0,0,0) when unknown. -/
structure IdentityRecord where
  first_name : List Char
  last_name : List Char
  father_name : List Char
  grandfather_name : List Char
  mother_last_name : List Char
  mother_name : List Char
  dob : Nat × Nat × Nat
  sex : Nat
  place_of_birth : List Char
deriving DecidableEq

/-- Rust `FieldScore` (main.rs). -/
structure FieldScore where
  field : List Char
  score : ℚ
deriving DecidableEq

/-- Rust `MatchResult` (main.rs). -/
structure MatchResult where
  matched_identity : IdentityRecord
  total_score : ℚ
  breakdown : List FieldScore
deriving DecidableEq

/-- Rust `normalize_fn` (main.rs line 122): the one-shot input normalization
closure of the match endpoint. -/
def normalize_fn (s : List Char) : List Char :=
  standardize_prefixes (normalize_arabic (remove_diacritics s))

/-- Rust `f64::round` of a non-negative score over `ℚ`: round half away from
zero. -/
def rustRound (q : ℚ) : ℚ :=
  if q < 0 then -(Int.floor (-q + 1 / 2) : ℚ) else (Int.floor (q + 1 / 2) : ℚ)

/-- The normalized query fields computed once at the top of
`match_identity` (main.rs lines 124-130). -/
structure NormInput where
  first : List Char
  last : List Char
  father : List Char
  grandfather : List Char
  motherLast : List Char
  mother : List Char
  place : List Char

def normalizeInput (input : InputIdentity) : NormInput :=
  { first := normalize_fn input.first_name
    last := normalize_fn input.last_name
    father := normalize_fn input.father_name
    grandfather := normalize_fn input.grandfather_name
    motherLast := normalize_fn input.mother_last_name
    mother := normalize_fn input.mother_name
    place := normalize_fn input.place_of_birth }

/-- The per-candidate scoring closure of `match_identity` (main.rs lines
194-281): the nine-entry breakdown (six names, dob, place, sex) and the
total from `calculate_full_score`, each `· 100` and rounded. -/
def scoreCandidate (input : InputIdentity) (ni : NormInput)
    (id_node : IdentityNode) : MatchResult :=
  let nameScores : List FieldScore :=
    [⟨ar ("الاسم الأول"),
      rustRound (best_score_against_variations ni.first id_node.first_name
        id_node.first_name_variations * 100)⟩,
     ⟨ar ("اسم العائلة"),
      rustRound (best_score_against_variations ni.last id_node.last_name
        id_node.last_name_variations * 100)⟩,
     ⟨ar ("اسم الأب"),
      rustRound (best_score_against_variations ni.father id_node.father_name
        id_node.father_name_variations * 100)⟩,
     ⟨ar ("اسم الجد"),
      rustRound (best_score_against_variations ni.grandfather
        id_node.grandfather_name id_node.grandfather_name_variations * 100)⟩,
     ⟨ar ("اسم عائلة الأم"),
      rustRound (best_score_against_variations ni.motherLast
        id_node.mother_last_name id_node.mother_last_name_variations * 100)⟩,
     ⟨ar ("اسم الأم"),
      rustRound (best_score_against_variations ni.mother id_node.mother_name
        id_node.mother_name_variations * 100)⟩]
  let dob_score : ℚ :=
    match input.dob, id_node.dob with
    | some (d1, m1, y1), some (d2, m2, y2) =>
      rustRound (((if d1 = d2 then (1 : ℚ) / 3 else 0)
        + (if m1 = m2 then (1 : ℚ) / 3 else 0)
        + (if y1 = y2 then (1 : ℚ) / 3 else 0)) * 100)
    | _, _ => 0
  let place_score :=
    rustRound (score_pair_with_soundex ni.place id_node.place_of_birth * 100)
  let sex_score : ℚ := if input.sex = id_node.sex then 100 else 0
  let raw_total :=
    calculate_full_score
      ⟨ni.first, ni.last, ni.father, ni.grandfather, ni.motherLast, ni.mother⟩
      ⟨id_node.first_name, id_node.last_name, id_node.father_name,
       id_node.grandfather_name, id_node.mother_last_name, id_node.mother_name⟩
      ⟨id_node.first_name_variations, id_node.last_name_variations,
       id_node.father_name_variations, id_node.grandfather_name_variations,
       id_node.mother_last_name_variations, id_node.mother_name_variations⟩
      input.dob id_node.dob ni.place id_node.place_of_birth
      input.sex id_node.sex * 100
  let record : IdentityRecord :=
    { first_name := id_node.first_name
      last_name := id_node.last_name
      father_name := id_node.father_name
      grandfather_name := id_node.grandfather_name
      mother_last_name := id_node.mother_last_name
      mother_name := id_node.mother_name
      dob := id_node.dob.getD (0, 0, 0)
      sex := id_node.sex
      place_of_birth := id_node.place_of_birth }
  { matched_identity := record
    total_score := rustRound raw_total
    breakdown := nameScores
      ++ [⟨ar ("تاريخ الميلاد"), dob_score⟩,
          ⟨ar ("مكان الولادة"), place_score⟩,
          ⟨ar ("الجنس"), sex_score⟩] }

/-- Model of `results.sort_unstable_by(|a, b|
b.total_score.partial_cmp(&a.total_score))`: a reordering that respects
the descending comparator.  Rust's unstable sort leaves the relative
order of equal elements unspecified; this model realizes the contract
with a deterministic insertion sort (see the notes on claim C6). -/
def insertDesc (r : MatchResult) : List MatchResult → List MatchResult
  | [] => [r]
  | x :: xs =>
    if x.total_score < r.total_score then r :: x :: xs else x :: insertDesc r xs

def sortDesc (l : List MatchResult) : List MatchResult :=
  l.foldr insertDesc []

/-- The candidate pre-filter step of `match_identity` (main.rs lines
150-183). -/
def candidatesOf (input : InputIdentity) (ni : NormInput)
    (records : List IdentityNode) : List IdentityNode :=
  records.filter (fun id_node =>
    should_consider_candidate
      ⟨⟨ni.first, ni.last, ni.father, ni.grandfather, ni.motherLast, ni.mother⟩,
       input.dob, input.sex, ni.place⟩
      ⟨⟨id_node.first_name, id_node.last_name, id_node.father_name,
        id_node.grandfather_name, id_node.mother_last_name,
        id_node.mother_name⟩,
       id_node.dob, id_node.sex, id_node.place_of_birth⟩)

/-- Rust `match_identity` (main.rs lines 118-299), parameterized by the
records the store returned for the generation bucket (the store is an
external collaborator).  Returns the HTTP status code and the response
body: 404 with an empty body when the bucket was empty, otherwise 200
with the sorted, thresholded (≥ 75), top-3 results. -/
def match_identity (input : InputIdentity) (records : List IdentityNode) :
    Nat × List MatchResult :=
  let ni := normalizeInput input
  if records.isEmpty then (404, [])
  else
    let candidates := candidatesOf input ni records
    if candidates.isEmpty then (200, [])
    else
      let results := candidates.map (scoreCandidate input ni)
      let sorted := sortDesc results
      let filtered := (sorted.filter (fun r => r.total_score ≥ 75)).take 3
      (200, filtered)

/-! ## Claim C10 — query-side and loader-side normalization agree -/

/-- C10: the normalization applied to each query text field at the match
endpoint (`normalize_fn`, main.rs line 122) and the normalization the
loader applies to each reference name field (loader.rs lines 49-53) are
the same function: both compute
`standardize_prefixes(normalize_arabic(remove_diacritics(s)))`, applied
exactly once. -/
theorem claim_C10_normalize_agreement :
    ∀ s : List Char, normalize_fn s = loaderNormalize s :=
  fun _ => rfl

/-! ## Claim C1 — the weighted total -/

/-- C1: for every pair of records, the total produced by
`calculate_full_score` equals
0.35·combo(first) + 0.30·combo(last) + 0.10·jaro(father)
+ 0.05·jaro(grandfather) + 0.05·jaro(mother-first)
+ 0.10·[dobs present and equal as triples] + 0.05·jaro(place),
divided by the accumulated weight sum, which is exactly 1; and the
mother-last field contributes nothing: changing either mother-last entry
leaves the total unchanged. -/
theorem claim_C1_total_formula :
    ∀ (inN tN : NameTuple) (vrs : VarTuple)
      (dob1 dob2 : Option (Nat × Nat × Nat)) (p1 p2 : List Char) (sx1 sx2 : Nat),
      calculate_full_score inN tN vrs dob1 dob2 p1 p2 sx1 sx2 =
        (combo inN.first tN.first * (35 / 100)
          + combo inN.last tN.last * (30 / 100)
          + jaro inN.father tN.father * (10 / 100)
          + jaro inN.grandfather tN.grandfather * (5 / 100)
          + jaro inN.mother tN.mother * (5 / 100)
          + (match dob1, dob2 with
             | some d1, some d2 => if d1 = d2 then (10 / 100 : ℚ) else 0
             | _, _ => 0)
          + jaro p1 p2 * (5 / 100)) / 1
      ∧ ∀ ml1 ml2 : List Char,
          calculate_full_score { inN with motherLast := ml1 }
            { tN with motherLast := ml2 } vrs dob1 dob2 p1 p2 sx1 sx2 =
          calculate_full_score inN tN vrs dob1 dob2 p1 p2 sx1 sx2 := by
  intro inN tN vrs dob1 dob2 p1 p2 sx1 sx2
  constructor
  · unfold calculate_full_score
    cases dob1 <;> cases dob2 <;> simp only [] <;>
      first
        | (split_ifs <;> ring)
        | ring
  · intro ml1 ml2
    rfl

/-! ## Claim C3 — the loader does not normalize the place of birth -/

/-- A concrete store row: Arabic names, place of birth "أريانة"
(which normalization would rewrite to "اريانه"). -/
def rowC3 : RawRow :=
  { first := ar ("أحمد"), last := ar ("طرابلسي"), father := ar ("محمد")
    grandpa := ar ("صالح"), mom_last := ar ("الحمامي"), mom := ar ("فاطمة")
    day := 15, mon := 6, year := 1985, gender := ar ("1")
    place := ar ("أريانة") }

/-- C3 fails on the code: the loader stores the place of birth raw
(`place_of_birth: place.clone()`, loader.rs line 94) while normalizing
the name fields, although matching.rs (line 67) and main.rs (lines
174-179, 262) assume the loader normalized it.  At the concrete row the
place field keeps its raw value, the first-name field is normalized, and
the normalizer would have changed the place. -/
theorem claim_C3_loader_place_raw :
    (loadRow rowC3).place_of_birth = rowC3.place
    ∧ (loadRow rowC3).first_name = loaderNormalize rowC3.first
    ∧ loaderNormalize rowC3.place ≠ rowC3.place := by
  refine ⟨rfl, rfl, ?_⟩
  decide

/-! ## Claim C4 — the Levenshtein component -/

/-- The claim's formula for the length-normalized Levenshtein component,
following the spec's words: `|a|`, `|b|` are lengths in characters
(Unicode scalar values), and when `|a| = 0` the component is 1 if
`|b| = 0` and 0 otherwise. -/
def lev_norm_claimed (a b : List Char) : ℚ :=
  if a.length = 0 then (if b.length = 0 then 1 else 0)
  else 1 - ((min (levenshtein a b) a.length : Nat) : ℚ)
    / ((max a.length 1 : Nat) : ℚ)

/-- C4 is false at two concrete inputs: for a = "" and b = "ب" the code
yields 1 (the cap `min(lev, |a|)` zeroes the numerator) where the claim
says 0; and for a = "اا" (2 characters, 4 UTF-8 bytes) and b = "" the
code computes with byte lengths and yields 1/2 where the claim's
character-length formula yields 0. -/
theorem claim_C4_counterexample :
    lev_component [] (ar ("ب")) = 1
    ∧ lev_norm_claimed [] (ar ("ب")) = 0
    ∧ lev_component (ar ("اا")) [] = 1 / 2
    ∧ lev_norm_claimed (ar ("اا")) [] = 0 := by
  have hsz : Char.utf8Size 'ا' = 2 := by decide
  refine ⟨?_, ?_, ?_, ?_⟩ <;>
    first
      | (simp [lev_component, lev_norm_claimed, levenshtein, utf8Len, ar, hsz];
          norm_num)
      | simp [lev_component, lev_norm_claimed, levenshtein, utf8Len, ar, hsz]

/-- C4 amended: the component uses UTF-8 byte lengths of the first
argument (`str::len`), i.e. it equals
`1 − min(levenshtein(a,b), bytelen(a)) / max(bytelen(a), 1)`, and when
`a` is empty it equals 1 regardless of `b`. -/
theorem claim_C4_lev_component_bytes :
    ∀ a b : List Char,
      score_pair_with_soundex a b =
        min (((jaro a b
            + (1 - ((min (levenshtein a b) (utf8Len a) : Nat) : ℚ)
              / ((max (utf8Len a) 1 : Nat) : ℚ))) / 2) * (8 / 10)
          + (if aramix_soundex a = aramix_soundex b then (2 / 10 : ℚ) else 0)) 1
      ∧ (a = [] → lev_component a b = 1) := by
  intro a b
  constructor
  · rfl
  · intro ha
    subst ha
    simp [lev_component, utf8Len]

/-- Witness for the amended C4 at a concrete input. -/
theorem claim_C4_witness :
    lev_component [] [] = 1 :=
  (claim_C4_lev_component_bytes [] []).2 rfl

/-! ## Claim C2 counterexample -/

/-- C2 is false: the Normalizer is not idempotent.  For s = "الال",
one application strips the leading "ال" leaving "ال", and a second
application strips again, giving "". -/
theorem claim_C2_counterexample :
    normalize_fn (normalize_fn (ar ("الال"))) ≠ normalize_fn (ar ("الال")) := by
  decide

/-! ## Claim C5 counterexample -/

/-- C5 is false: `code.truncate(4)` truncates to 4 bytes, not 4
characters.  For the input "طرابلسي" the untruncated code is "ط4145"
(5 characters); the first character ط occupies 2 UTF-8 bytes, so the
output is "ط41" (3 characters), not the first 4 characters "ط414". -/
theorem claim_C5_counterexample :
    4 < (rawCode (ar ("طرابلسي"))).length
    ∧ get_code (ar ("طرابلسي")) = some (ar ("ط41"))
    ∧ ar ("ط41") ≠ (rawCode (ar ("طرابلسي"))).take 4 := by
  decide

/-! ## Claim C7 — status codes of the match endpoint -/

/-- C7: the endpoint answers 404 with an empty body exactly when the
generation-bucket fetch returned no records; when records were fetched,
the status is 200, also when the candidate filter (or the ≥ 75
threshold, which only shrinks the 200-branch list) removed all of
them. -/
theorem claim_C7_status_codes :
    ∀ (input : InputIdentity) (records : List IdentityNode),
      ((match_identity input records).1 = 404 ↔ records = [])
      ∧ (records = [] → match_identity input records = (404, []))
      ∧ (records ≠ [] → (match_identity input records).1 = 200)
      ∧ (records ≠ [] →
          candidatesOf input (normalizeInput input) records = [] →
          match_identity input records = (200, [])) := by
  intro input records
  cases records with
  | nil =>
    refine ⟨by simp [match_identity], fun _ => by simp [match_identity],
      fun h => absurd rfl h, fun h => absurd rfl h⟩
  | cons r rs =>
    have h200 : (match_identity input (r :: rs)).1 = 200 := by
      show (if (r :: rs).isEmpty then ((404 : Nat), ([] : List MatchResult))
        else _).1 = 200
      simp only [List.isEmpty_cons, if_false, Bool.false_eq_true]
      split <;> rfl
    refine ⟨?_, ?_, fun _ => h200, ?_⟩
    · constructor
      · intro h4
        rw [h200] at h4
        exact absurd h4 (by decide)
      · intro h
        exact absurd h (List.cons_ne_nil r rs)
    · intro h
      exact absurd h (List.cons_ne_nil r rs)
    · intro _ hc
      show (if (r :: rs).isEmpty then ((404 : Nat), ([] : List MatchResult))
        else _) = (200, [])
      simp only [List.isEmpty_cons, if_false, Bool.false_eq_true]
      rw [hc]
      rfl

/-- An all-empty query and reference node for the C7 witness. -/
def inputC7 : InputIdentity :=
  ⟨[], [], [], [], [], [], none, 0, []⟩

def nodeC7 : IdentityNode :=
  ⟨[], [], [], [], [], [], none, 0, [], none, none, none, none, none, none⟩

/-- Witness for C7: empty bucket gives (404, []), a non-empty bucket
gives status 200. -/
theorem claim_C7_witness :
    match_identity inputC7 [] = (404, [])
    ∧ (match_identity inputC7 [nodeC7]).1 = 200 :=
  ⟨(claim_C7_status_codes inputC7 []).2.1 rfl,
   (claim_C7_status_codes inputC7 [nodeC7]).2.2.1 (List.cons_ne_nil _ _)⟩

/-! ## Normalizer lemmas (towards claims C2 and C8) -/

theorem mem_replaceChar {x c : Char} {r l : List Char}
    (h : x ∈ replaceChar c r l) : x ∈ r ∨ x ∈ l := by
  simp only [replaceChar, List.mem_flatMap] at h
  obtain ⟨y, hy, hx⟩ := h
  by_cases hyc : y = c
  · rw [if_pos hyc] at hx
    exact Or.inl hx
  · rw [if_neg hyc] at hx
    simp only [List.mem_singleton] at hx
    exact Or.inr (hx ▸ hy)

theorem not_mem_replaceChar {x c : Char} {r l : List Char}
    (hr : x ∉ r) (hl : x ∉ l) : x ∉ replaceChar c r l :=
  fun h => (mem_replaceChar h).elim hr hl

theorem pattern_not_mem_replaceChar {c : Char} {r l : List Char}
    (hr : c ∉ r) : c ∉ replaceChar c r l := by
  intro h
  simp only [replaceChar, List.mem_flatMap] at h
  obtain ⟨y, _, hx⟩ := h
  by_cases hyc : y = c
  · rw [if_pos hyc] at hx
    exact hr hx
  · rw [if_neg hyc] at hx
    simp only [List.mem_singleton] at hx
    exact hyc (hx ▸ rfl)

theorem replaceChar_eq_self {c : Char} {r l : List Char}
    (h : c ∉ l) : replaceChar c r l = l := by
  induction l with
  | nil => rfl
  | cons y ys ih =>
    have hyc : y ≠ c := fun he => h (he ▸ List.mem_cons_self y ys)
    have hys : c ∉ ys := fun hm => h (List.mem_cons_of_mem y hm)
    simp only [replaceChar, List.flatMap_cons, if_neg hyc] at *
    simp only [List.singleton_append, List.cons.injEq, true_and]
    exact ih hys

theorem mem_runStages {stages : List (Char × List Char)} {l : List Char} {x : Char}
    (h : x ∈ runStages stages l) : x ∈ l ∨ ∃ st ∈ stages, x ∈ st.2 := by
  induction stages generalizing l with
  | nil => exact Or.inl h
  | cons st rest ih =>
    simp only [runStages, List.foldl_cons] at h
    rcases ih h with hm | ⟨st', hst', hx⟩
    · rcases mem_replaceChar hm with hr | hl
      · exact Or.inr ⟨st, List.mem_cons_self st rest, hr⟩
      · exact Or.inl hl
    · exact Or.inr ⟨st', List.mem_cons_of_mem st hst', hx⟩

theorem not_mem_runStages {stages : List (Char × List Char)} {l : List Char} {c : Char}
    (hl : c ∉ l) (hs : ∀ st ∈ stages, c ∉ st.2) : c ∉ runStages stages l := by
  induction stages generalizing l with
  | nil => exact hl
  | cons st rest ih =>
    simp only [runStages, List.foldl_cons]
    exact ih
      (not_mem_replaceChar (hs st (List.mem_cons_self st rest)) hl)
      (fun st' h' => hs st' (List.mem_cons_of_mem st h'))

theorem pattern_not_mem_runStages {stages : List (Char × List Char)}
    {l : List Char} {st₀ : Char × List Char} (hmem : st₀ ∈ stages)
    (hs : ∀ st ∈ stages, st₀.1 ∉ st.2) : st₀.1 ∉ runStages stages l := by
  induction stages generalizing l with
  | nil => exact absurd hmem (List.not_mem_nil st₀)
  | cons st rest ih =>
    simp only [runStages, List.foldl_cons]
    rcases List.mem_cons.mp hmem with he | hr
    · subst he
      exact not_mem_runStages
        (pattern_not_mem_replaceChar (hs st₀ (List.mem_cons_self st₀ rest)))
        (fun st' h' => hs st' (List.mem_cons_of_mem st₀ h'))
    · exact ih hr (fun st' h' => hs st' (List.mem_cons_of_mem st h'))

theorem runStages_eq_self {stages : List (Char × List Char)} {l : List Char}
    (h : ∀ st ∈ stages, st.1 ∉ l) : runStages stages l = l := by
  induction stages with
  | nil => rfl
  | cons st rest ih =>
    simp only [runStages, List.foldl_cons,
      replaceChar_eq_self (h st (List.mem_cons_self st rest))]
    exact ih (fun st' h' => h st' (List.mem_cons_of_mem st h'))

/-- Rust `standardize_prefixes` only ever drops a prefix of its input. -/
theorem standardize_drop (l : List Char) :
    ∃ k, standardize_prefixes l = l.drop k := by
  unfold standardize_prefixes
  cases h : prefTable.find? (fun p => p.isPrefixOf l) with
  | none => exact ⟨0, rfl⟩
  | some p => exact ⟨p.length, rfl⟩

/-- Every character of a fully normalized string is neither a diacritic
pattern nor a letter-unification pattern. -/
theorem normalize_fn_chars {s : List Char} {x : Char}
    (h : x ∈ normalize_fn s) :
    (∀ st ∈ diaStages, x ≠ st.1) ∧ (∀ st ∈ arabStages, x ≠ st.1) := by
  have hAD : x ∈ normalize_arabic (remove_diacritics s) := by
    obtain ⟨k, hk⟩ := standardize_drop (normalize_arabic (remove_diacritics s))
    have := h
    unfold normalize_fn at this
    rw [hk] at this
    exact List.mem_of_mem_drop this
  have diaDia : ∀ st ∈ diaStages, ∀ st' ∈ diaStages, st.1 ∉ st'.2 := by decide
  have diaArab : ∀ st ∈ diaStages, ∀ st' ∈ arabStages, st.1 ∉ st'.2 := by decide
  have arabArab : ∀ st ∈ arabStages, ∀ st' ∈ arabStages, st.1 ∉ st'.2 := by
    decide
  constructor
  · intro st hst he
    exact not_mem_runStages
      (pattern_not_mem_runStages hst (fun st' h' => diaDia st hst st' h'))
      (fun st' h' => diaArab st hst st' h') (he ▸ hAD)
  · intro st hst he
    exact pattern_not_mem_runStages hst
      (fun st' h' => arabArab st hst st' h') (he ▸ hAD)

/-! ## Claim C2 — idempotence of the Normalizer -/

/-- C2 amended: a second application of the Normalizer reduces to a
second prefix strip — `N(N(s)) = standardize_prefixes(N(s))` — so the
Normalizer is idempotent exactly on the strings whose normal form does
not again begin with one of the six prefixes.  (The counterexample
"الال" shows the unrestricted claim is false.) -/
theorem claim_C2_idempotence_amended :
    ∀ s : List Char,
      normalize_fn (normalize_fn s) = standardize_prefixes (normalize_fn s)
      ∧ (prefTable.find? (fun p => p.isPrefixOf (normalize_fn s)) = none →
          normalize_fn (normalize_fn s) = normalize_fn s) := by
  intro s
  have hD : remove_diacritics (normalize_fn s) = normalize_fn s :=
    runStages_eq_self (fun st hst hm => (normalize_fn_chars hm).1 st hst rfl)
  have hA : normalize_arabic (normalize_fn s) = normalize_fn s :=
    runStages_eq_self (fun st hst hm => (normalize_fn_chars hm).2 st hst rfl)
  have hNN : normalize_fn (normalize_fn s)
      = standardize_prefixes (normalize_fn s) := by
    show standardize_prefixes
      (normalize_arabic (remove_diacritics (normalize_fn s)))
      = standardize_prefixes (normalize_fn s)
    rw [hD, hA]
  refine ⟨hNN, fun hfind => ?_⟩
  rw [hNN]
  unfold standardize_prefixes
  rw [hfind]

/-- Witness for the amended C2 at the concrete input "أحمد". -/
theorem claim_C2_witness :
    normalize_fn (normalize_fn (ar ("أحمد"))) = normalize_fn (ar ("أحمد")) :=
  (claim_C2_idempotence_amended (ar ("أحمد"))).2 (by decide)

/-! ## Byte-level lemmas (towards claims C8 and C5) -/

theorem utf8SizePos (c : Char) : 0 < c.utf8Size := by
  unfold Char.utf8Size
  dsimp only
  split_ifs <;> norm_num

theorem utf8SizeLeFour (c : Char) : c.utf8Size ≤ 4 := by
  unfold Char.utf8Size
  dsimp only
  split_ifs <;> norm_num

theorem utf8Len_nil : utf8Len [] = 0 := rfl

theorem utf8Len_cons (c : Char) (l : List Char) :
    utf8Len (c :: l) = c.utf8Size + utf8Len l := by
  simp [utf8Len]

/-- Slicing at the byte length of a matched prefix lands on a character
boundary and drops exactly the prefix's characters. -/
theorem sliceFromByte_of_pref :
    ∀ (p l : List Char), p.isPrefixOf l = true →
      sliceFromByte (utf8Len p) l = some (l.drop p.length) := by
  intro p
  induction p with
  | nil =>
    intro l _
    cases l with
    | nil => simp [sliceFromByte, utf8Len]
    | cons c cs => simp [sliceFromByte, utf8Len]
  | cons a p' ih =>
    intro l h
    cases l with
    | nil => simp [List.isPrefixOf] at h
    | cons c cs =>
      simp only [List.isPrefixOf, Bool.and_eq_true, beq_iff_eq] at h
      obtain ⟨hac, hp⟩ := h
      subst hac
      have hpos := utf8SizePos a
      rw [utf8Len_cons]
      simp only [sliceFromByte]
      rw [if_neg (by omega), if_pos (by omega)]
      have : a.utf8Size + utf8Len p' - a.utf8Size = utf8Len p' := by omega
      rw [this, ih cs hp]
      simp

theorem digitOf_size (c : Char) : (digitOf c).utf8Size = 1 := by
  unfold digitOf
  split_ifs <;> decide

theorem codeDigits_size :
    ∀ (l : List Char) (last : Char), ∀ x ∈ codeDigits l last, x.utf8Size = 1 := by
  intro l
  induction l with
  | nil => intro last x hx; simp [codeDigits] at hx
  | cons c cs ih =>
    intro last x hx
    simp only [codeDigits] at hx
    split at hx
    · rcases List.mem_cons.mp hx with he | hm
      · rw [he]; exact digitOf_size c
      · exact ih (digitOf c) x hm
    · exact ih last x hx

theorem utf8Len_ones {l : List Char} (h : ∀ x ∈ l, x.utf8Size = 1) :
    utf8Len l = l.length := by
  induction l with
  | nil => rfl
  | cons c cs ih =>
    rw [utf8Len_cons, h c (List.mem_cons_self c cs),
      ih (fun x hx => h x (List.mem_cons_of_mem c hx))]
    simp [Nat.add_comm]

theorem truncBytes_of_le :
    ∀ (l : List Char) (n : Nat), utf8Len l ≤ n → truncBytes n l = l := by
  intro l
  induction l with
  | nil => intro n _; rfl
  | cons c cs ih =>
    intro n h
    rw [utf8Len_cons] at h
    simp only [truncBytes]
    rw [if_pos (by omega)]
    rw [ih (n - c.utf8Size) (by omega)]

theorem takeToByte_ones :
    ∀ (ds : List Char) (m : Nat), (∀ x ∈ ds, x.utf8Size = 1) →
      m < ds.length →
      rustTruncate.takeToByte m ds = some (ds.take m) := by
  intro ds
  induction ds with
  | nil => intro m _ hm; simp at hm
  | cons d ds' ih =>
    intro m hones hm
    cases m with
    | zero => simp [rustTruncate.takeToByte]
    | succ k =>
      have hd : d.utf8Size = 1 := hones d (List.mem_cons_self d ds')
      simp only [rustTruncate.takeToByte]
      rw [if_neg (by omega), if_pos (by omega), hd]
      have : k + 1 - 1 = k := by omega
      rw [this, ih k (fun x hx => hones x (List.mem_cons_of_mem d hx))
        (by simpa using Nat.lt_of_succ_lt_succ hm)]
      simp

theorem truncBytes_ones :
    ∀ (ds : List Char) (m : Nat), (∀ x ∈ ds, x.utf8Size = 1) →
      m ≤ ds.length → truncBytes m ds = ds.take m := by
  intro ds
  induction ds with
  | nil => intro m _ _; simp [truncBytes]
  | cons d ds' ih =>
    intro m hones hm
    have hd : d.utf8Size = 1 := hones d (List.mem_cons_self d ds')
    cases m with
    | zero =>
      simp only [truncBytes]
      rw [if_neg (by omega)]
      rfl
    | succ k =>
      simp only [truncBytes]
      rw [if_pos (by omega), hd]
      have : k + 1 - 1 = k := by omega
      rw [this, ih k (fun x hx => hones x (List.mem_cons_of_mem d hx))
        (by simpa using Nat.le_of_succ_le_succ hm)]
      rfl

/-- Rust `get_code` never hits the truncation panic and computes the greedy
4-byte cut of the untruncated code. -/
theorem get_code_eq (name : List Char) :
    get_code name = some (getCodeT name) := by
  unfold get_code getCodeT rustTruncate
  by_cases hle : utf8Len (rawCode name) ≤ 4
  · rw [if_pos hle, truncBytes_of_le (rawCode name) 4 hle]
  · rw [if_neg hle]
    cases hn : name with
    | nil => rw [hn] at hle; simp [rawCode, utf8Len] at hle
    | cons c rest =>
      rw [hn] at hle
      have hraw : rawCode (c :: rest) = c :: codeDigits rest '0' := rfl
      rw [hraw] at hle ⊢
      have hones := codeDigits_size rest '0'
      have hlen : utf8Len (codeDigits rest '0') = (codeDigits rest '0').length :=
        utf8Len_ones hones
      rw [utf8Len_cons, hlen] at hle
      have hcpos := utf8SizePos c
      have hcle := utf8SizeLeFour c
      simp only [rustTruncate.takeToByte]
      rw [if_neg (by omega), if_pos (by omega)]
      rw [takeToByte_ones (codeDigits rest '0') (4 - c.utf8Size) hones (by omega)]
      simp only [truncBytes]
      rw [if_pos (by omega)]
      rw [truncBytes_ones (codeDigits rest '0') (4 - c.utf8Size) hones (by omega)]
      rfl

/-! ## Claim C8 — totality / panic-freedom of the flagged byte operations -/

/-- C8: the two byte-index operations flagged by the claim never panic:
the slice at `prefix.len()` in `standardize_prefixes` always falls on a
character boundary (the byte-level model returns `some` and agrees with
the character-level function), and so does `code.truncate(4)` in
`get_code`.  Together with the remaining §4.1–§4.3 functions being
structurally total, every function returns a value on every Unicode
string. -/
theorem claim_C8_no_panics :
    ∀ s : List Char,
      standardize_prefixes_bytes s = some (standardize_prefixes s)
      ∧ get_code s = some (getCodeT s) := by
  intro s
  refine ⟨?_, get_code_eq s⟩
  unfold standardize_prefixes_bytes standardize_prefixes
  cases hfind : prefTable.find? (fun p => p.isPrefixOf s) with
  | none => rfl
  | some p =>
    have hp : p.isPrefixOf s = true := by
      have := List.find?_some hfind
      simpa using this
    exact sliceFromByte_of_pref p s hp

/-! ## Claim C5 — truncation of the phonetic code -/

theorem truncBytes_append :
    ∀ (l : List Char) (n : Nat), ∃ rest, truncBytes n l ++ rest = l := by
  intro l
  induction l with
  | nil => intro n; exact ⟨[], rfl⟩
  | cons c cs ih =>
    intro n
    simp only [truncBytes]
    split
    · obtain ⟨rest, hr⟩ := ih (n - c.utf8Size)
      exact ⟨rest, by simp [hr]⟩
    · exact ⟨c :: cs, rfl⟩

theorem utf8Len_truncBytes_le :
    ∀ (l : List Char) (n : Nat), utf8Len (truncBytes n l) ≤ n := by
  intro l
  induction l with
  | nil => intro n; simp [truncBytes, utf8Len]
  | cons c cs ih =>
    intro n
    simp only [truncBytes]
    split
    · rw [utf8Len_cons]
      have := ih (n - c.utf8Size)
      omega
    · simp [utf8Len]

theorem truncBytes_max :
    ∀ (q r l : List Char) (n : Nat), q ++ r = l → utf8Len q ≤ n →
      q.length ≤ (truncBytes n l).length := by
  intro q
  induction q with
  | nil => intro r l n _ _; simp
  | cons a q' ih =>
    intro r l n happ hlen
    rw [utf8Len_cons] at hlen
    have hpos := utf8SizePos a
    cases l with
    | nil => simp at happ
    | cons c cs =>
      rw [List.cons_append, List.cons.injEq] at happ
      obtain ⟨hac, happ'⟩ := happ
      subst hac
      simp only [truncBytes]
      rw [if_pos (by omega)]
      simpa using ih r cs (n - a.utf8Size) happ' (by omega)

/-- C5 amended: `get_code` copies the first input character verbatim,
appends the run-length-collapsed non-zero digits, and truncates the
result to 4 UTF-8 **bytes** (`String::truncate(4)`), i.e. it returns the
longest prefix of the untruncated code that fits in 4 bytes — 4
characters when the first character is one byte, fewer when it is
wider. -/
theorem claim_C5_truncate_to_four_bytes :
    ∀ name : List Char, ∃ out rest,
      get_code name = some out
      ∧ out ++ rest = rawCode name
      ∧ utf8Len out ≤ 4
      ∧ ∀ q r', q ++ r' = rawCode name → utf8Len q ≤ 4 →
          q.length ≤ out.length := by
  intro name
  obtain ⟨rest, hrest⟩ := truncBytes_append (rawCode name) 4
  exact ⟨getCodeT name, rest, get_code_eq name, hrest,
    utf8Len_truncBytes_le (rawCode name) 4,
    fun q r' happ hq => truncBytes_max q r' (rawCode name) 4 happ hq⟩

/-- Witness for the amended C5 at the concrete input "ب". -/
theorem claim_C5_witness :
    ∃ out rest,
      get_code (ar ("ب")) = some out
      ∧ out ++ rest = rawCode (ar ("ب"))
      ∧ utf8Len out ≤ 4
      ∧ (ar ("ب")).length ≤ out.length := by
  obtain ⟨out, rest, h1, h2, h3, h4⟩ :=
    claim_C5_truncate_to_four_bytes (ar ("ب"))
  exact ⟨out, rest, h1, h2, h3, h4 (ar ("ب")) [] (by decide) (by decide)⟩

/-! ## Order lemmas for the variation list (towards claim C9) -/

theorem charEqOfToNat {x y : Char} (h : x.toNat = y.toNat) : x = y :=
  Char.eq_of_val_eq (UInt32.ext h)

theorem strLtB_irrefl : ∀ l : List Char, strLtB l l = false := by
  intro l
  induction l with
  | nil => rfl
  | cons a as ih => simp [strLtB, Nat.lt_irrefl, ih]

theorem strLtB_ne {a b : List Char} (h : strLtB a b = true) : a ≠ b := by
  intro he
  subst he
  rw [strLtB_irrefl] at h
  exact Bool.false_ne_true h

theorem strLtB_trans :
    ∀ a b c : List Char, strLtB a b = true → strLtB b c = true →
      strLtB a c = true := by
  intro a
  induction a with
  | nil =>
    intro b c hab hbc
    cases b with
    | nil => simp [strLtB] at hab
    | cons y ys =>
      cases c with
      | nil => simp [strLtB] at hbc
      | cons z zs => simp [strLtB]
  | cons x xs ih =>
    intro b c hab hbc
    cases b with
    | nil => simp [strLtB] at hab
    | cons y ys =>
      cases c with
      | nil => simp [strLtB] at hbc
      | cons z zs =>
        simp only [strLtB] at hab hbc ⊢
        by_cases hxy : x.toNat < y.toNat
        · by_cases hyz : y.toNat < z.toNat
          · rw [if_pos (by omega)]
          · by_cases hzy : z.toNat < y.toNat
            · rw [if_neg hyz, if_pos hzy] at hbc
              exact absurd hbc (by decide)
            · rw [if_pos (by omega)]
        · by_cases hyx : y.toNat < x.toNat
          · rw [if_neg hxy, if_pos hyx] at hab
            exact absurd hab (by decide)
          · rw [if_neg hxy, if_neg hyx] at hab
            by_cases hyz : y.toNat < z.toNat
            · rw [if_pos (by omega)]
            · by_cases hzy : z.toNat < y.toNat
              · rw [if_neg hyz, if_pos hzy] at hbc
                exact absurd hbc (by decide)
              · rw [if_neg hyz, if_neg hzy] at hbc
                rw [if_neg (by omega), if_neg (by omega)]
                exact ih ys zs hab hbc

theorem strLtB_connex :
    ∀ a b : List Char, a ≠ b → strLtB a b = false → strLtB b a = true := by
  intro a
  induction a with
  | nil =>
    intro b hne hab
    cases b with
    | nil => exact absurd rfl hne
    | cons y ys => simp [strLtB] at hab
  | cons x xs ih =>
    intro b hne hab
    cases b with
    | nil => simp [strLtB]
    | cons y ys =>
      simp only [strLtB] at hab ⊢
      by_cases hxy : x.toNat < y.toNat
      · rw [if_pos hxy] at hab
        exact absurd hab (by decide)
      · by_cases hyx : y.toNat < x.toNat
        · rw [if_pos hyx]
        · have hxyc : x = y := charEqOfToNat (by omega)
          rw [if_neg hxy, if_neg hyx] at hab
          rw [if_neg (by omega), if_neg (by omega)]
          have hne' : xs ≠ ys := fun he => hne (by rw [hxyc, he])
          exact ih ys hne' hab

/-- List-level version of `insert_variation`. -/
def insertRaw (v : List Char) : List (List Char) → List (List Char)
  | [] => [v]
  | w :: ws =>
    if w = v then w :: ws
    else if strLtB v w then v :: w :: ws
    else w :: insertRaw v ws

theorem varList_insert (v : List Char) :
    ∀ h : Option VariationNode,
      varList (insert_variation h v) = insertRaw v (varList h)
  | none => by simp [insert_variation, varList, insertRaw]
  | some (.mk w next) => by
    simp only [insert_variation, varList, insertRaw]
    by_cases hw : w = v
    · rw [if_pos hw, if_pos hw]
      simp [varList]
    · rw [if_neg hw, if_neg hw]
      by_cases hlt : strLtB v w
      · rw [if_pos hlt, if_pos hlt]
        simp [varList]
      · rw [if_neg hlt, if_neg hlt]
        simp [varList, varList_insert v next]

theorem mem_insertRaw :
    ∀ (l : List (List Char)) (v x : List Char),
      x ∈ insertRaw v l → x = v ∨ x ∈ l := by
  intro l
  induction l with
  | nil =>
    intro v x hx
    simp [insertRaw] at hx
    exact Or.inl hx
  | cons w ws ih =>
    intro v x hx
    simp only [insertRaw] at hx
    split at hx
    · exact Or.inr hx
    · split at hx
      · rcases List.mem_cons.mp hx with he | hm
        · exact Or.inl he
        · exact Or.inr hm
      · rcases List.mem_cons.mp hx with he | hm
        · exact Or.inr (he ▸ List.mem_cons_self w ws)
        · rcases ih v x hm with h1 | h2
          · exact Or.inl h1
          · exact Or.inr (List.mem_cons_of_mem w h2)

theorem insertRaw_pairwise :
    ∀ (l : List (List Char)) (v : List Char),
      l.Pairwise (fun a b => strLtB a b = true) →
      (insertRaw v l).Pairwise (fun a b => strLtB a b = true) := by
  intro l
  induction l with
  | nil => intro v _; simp [insertRaw]
  | cons w ws ih =>
    intro v hp
    rw [List.pairwise_cons] at hp
    obtain ⟨hw_all, hws⟩ := hp
    simp only [insertRaw]
    split
    · exact List.pairwise_cons.mpr ⟨hw_all, hws⟩
    · split
      · refine List.pairwise_cons.mpr ⟨?_, List.pairwise_cons.mpr ⟨hw_all, hws⟩⟩
        intro y hy
        rcases List.mem_cons.mp hy with he | hm
        · exact he ▸ (by assumption)
        · exact strLtB_trans v w y (by assumption) (hw_all y hm)
      · refine List.pairwise_cons.mpr ⟨?_, ih v hws⟩
        intro y hy
        rcases mem_insertRaw ws v y hy with he | hm
        · subst he
          exact strLtB_connex y w (fun h => (by assumption : ¬w = y) h.symm)
            (by simpa using (by assumption : ¬strLtB y w = true))
        · exact hw_all y hm

/-! ## Claim C9 — no duplicates in the variation list -/

/-- C9 is false as stated: `insert_variation` deduplicates by raw string
equality, so two raw variants that differ before normalization but agree
after it are both stored.  Inserting "أحمد" then "احمد" yields a
two-element list whose entries normalize to the same string. -/
theorem claim_C9_counterexample :
    varList (insert_variation (insert_variation none (ar ("أحمد"))) (ar ("احمد")))
      = [ar ("أحمد"), ar ("احمد")]
    ∧ normalize_fn (ar ("أحمد")) = normalize_fn (ar ("احمد"))
    ∧ ar ("أحمد") ≠ ar ("احمد") := by
  refine ⟨?_, by decide, by decide⟩
  rw [varList_insert, varList_insert]
  simp only [varList]
  decide

/-- C9 amended: the variation list built by `insert_variation` contains
no duplicate **raw** variants (pairwise distinct as raw strings); the
deduplication is performed before normalization, not after it. -/
theorem claim_C9_no_raw_duplicates :
    ∀ raws : List (List Char),
      (varList (raws.foldl insert_variation none)).Pairwise (· ≠ ·) := by
  have key : ∀ (raws : List (List Char)) (acc : Option VariationNode),
      (varList acc).Pairwise (fun a b => strLtB a b = true) →
      (varList (raws.foldl insert_variation acc)).Pairwise
        (fun a b => strLtB a b = true) := by
    intro raws
    induction raws with
    | nil => intro acc h; exact h
    | cons v vs ih =>
      intro acc h
      refine ih (insert_variation acc v) ?_
      rw [varList_insert]
      exact insertRaw_pairwise (varList acc) v h
  intro raws
  exact (key raws none (by simp [varList])).imp (fun h => strLtB_ne h)

end TunisianNames
